import Mathlib

/-!
Shallow embedding of `src/multithreaded_compressor.cpp`.

Bytes are modelled as `List Nat` and an input file as `Option (List Nat)`
(`none` for a missing file).  The zlib primitives `compress2`, `uncompress`
and `compressBound` are external collaborators; they are modelled by the
`Codec` structure, whose run functions describe a primitive that writes in
place into a caller-sized buffer and reports an output length and a success
flag, exactly the calling convention the C++ code uses.  Multi-byte header
fields are serialized in little-endian byte order, the native order of the
x86-64 target the source is written for.  The per-chunk worker threads only
ever write their own index-addressed slots and the driver reads the slots
after the join, so the fork-join phase is modelled as a per-chunk map.
-/

namespace MTZ

/-- Magic tag of the container format: the ASCII bytes of "MTZ1". -/
def MAGIC : List Nat := [77, 84, 90, 49]

/-- Container format version constant. -/
def VERSION : Nat := 1

/-- Minimum chunk size enforced by the planner: 64 KiB. -/
def MIN_CHUNK : Nat := 64 * 1024

/-- Per-chunk metadata record stored in the container header. -/
structure ChunkMeta where
  compressed_size : Nat
  original_size : Nat
deriving DecidableEq

/-- Model of the zlib primitives.  `compRun src cap` models `compress2`
writing into a destination buffer of capacity `cap`: it returns the buffer
contents after the call (always of length `cap`: the vector is resized before
the call and the primitive writes in place), the reported output length, and
the success flag (`true` for `Z_OK`).  `decompRun` models `uncompress` the
same way, and `bound` models `compressBound`. -/
structure Codec where
  bound : Nat → Nat
  compRun : List Nat → Nat → List Nat × Nat × Bool
  decompRun : List Nat → Nat → List Nat × Nat × Bool
  compRun_len : ∀ src cap, (compRun src cap).1.length = cap
  decompRun_len : ∀ src cap, (decompRun src cap).1.length = cap

/-- Model of `compress_chunk`: resize the output buffer to `compressBound`,
run the primitive, and on success truncate to the reported length.  On
failure the buffer is returned untruncated, still of bound size. -/
def compress_chunk (c : Codec) (inbuf : List Nat) : List Nat × Bool :=
  let r := c.compRun inbuf (c.bound inbuf.length)
  if r.2.2 then (r.1.take r.2.1, true) else (r.1, false)

/-- Model of `decompress_chunk`: resize the output buffer to `expected_size`,
run the primitive, and report success only when the primitive succeeded and
produced exactly `expected_size` bytes.  The buffer keeps length
`expected_size` in every case. -/
def decompress_chunk (c : Codec) (inbuf : List Nat) (expected_size : Nat) :
    List Nat × Bool :=
  let r := c.decompRun inbuf expected_size
  (r.1, r.2.2 && decide (r.2.1 = expected_size))

/-- Little-endian encoding of `v` on `w` bytes, as written by `out.write` of
a fixed-width unsigned integer on the little-endian target. -/
def leBytes : Nat → Nat → List Nat
  | 0, _ => []
  | w + 1, v => v % 256 :: leBytes w (v / 256)

/-- Little-endian decoding of a byte list, as read by `in.read` into a
fixed-width unsigned integer. -/
def decodeLE (bs : List Nat) : Nat :=
  bs.foldr (fun b acc => b + 256 * acc) 0

/-- Model of `in.read(buf, n)`: succeed with the first `n` bytes and the
remaining stream iff at least `n` bytes are available. -/
def readBytesN (n : Nat) (bs : List Nat) : Option (List Nat × List Nat) :=
  if n ≤ bs.length then some (bs.take n, bs.drop n) else none

/-- Serialization of one `ChunkMeta` record. -/
def encodeMeta (m : ChunkMeta) : List Nat :=
  leBytes 8 m.compressed_size ++ leBytes 8 m.original_size

/-- Model of `write_header`: magic, version, chunk count, then the metadata
records in index order. -/
def write_header (metas : List ChunkMeta) : List Nat :=
  MAGIC ++ leBytes 4 VERSION ++ leBytes 8 metas.length ++
    (metas.map encodeMeta).flatten

/-- Model of the metadata-reading loop of `read_header`. -/
def readMetas : Nat → List Nat → Option (List ChunkMeta × List Nat)
  | 0, bs => some ([], bs)
  | n + 1, bs =>
    match readBytesN 8 bs with
    | none => none
    | some (csb, bs1) =>
      match readBytesN 8 bs1 with
      | none => none
      | some (osb, bs2) =>
        match readMetas n bs2 with
        | none => none
        | some (ms, bs3) => some (⟨decodeLE csb, decodeLE osb⟩ :: ms, bs3)

/-- Model of `read_header`: check the magic tag, then the version, then read
the chunk count and the metadata records. -/
def read_header (bs : List Nat) : Option (List ChunkMeta × List Nat) :=
  match readBytesN 4 bs with
  | none => none
  | some (magic, bs1) =>
    if magic ≠ MAGIC then none
    else
      match readBytesN 4 bs1 with
      | none => none
      | some (verb, bs2) =>
        if decodeLE verb ≠ VERSION then none
        else
          match readBytesN 8 bs2 with
          | none => none
          | some (cntb, bs3) => readMetas (decodeLE cntb) bs3

/-- Model of the payload-reading loop of `decompress_file`: read each block
of its declared `compressed_size`, in index order. -/
def readBlocks : List ChunkMeta → List Nat → Option (List (List Nat))
  | [], _ => some []
  | m :: ms, bs =>
    match readBytesN m.compressed_size bs with
    | none => none
    | some (blk, bs1) =>
      match readBlocks ms bs1 with
      | none => none
      | some blks => some (blk :: blks)

/-- Chunk layout computed by the planner section of `compress_file`. -/
structure Plan where
  ideal_chunk : Nat
  nthreads : Nat
deriving DecidableEq

/-- Model of the chunk-planning section of `compress_file`: clamp the
requested parallelism to at least 1, take the ceiling chunk size, and enforce
the 64 KiB minimum chunk size, recomputing the thread count when it fires. -/
def planChunks (total_size : Nat) (threads_requested : Int) : Plan :=
  let nthreads := (max 1 threads_requested).toNat
  let ideal_chunk := (total_size + nthreads - 1) / nthreads
  if ideal_chunk < MIN_CHUNK then
    let ic := min MIN_CHUNK total_size
    { ideal_chunk := ic, nthreads := max 1 ((total_size + ic - 1) / ic) }
  else
    { ideal_chunk := ideal_chunk, nthreads := nthreads }

/-- Model of the chunk-reading loop of `compress_file`: walk the file in
`ideal_chunk`-sized strides starting at index `i`, for at most `n` chunks,
stopping as soon as the start offset reaches `total_size`.  Each emitted pair
is a `(start, size)` byte range. -/
def chunkRangesAux (total_size ideal_chunk : Nat) : Nat → Nat → List (Nat × Nat)
  | 0, _ => []
  | n + 1, i =>
    if total_size ≤ i * ideal_chunk then []
    else
      (i * ideal_chunk, min ideal_chunk (total_size - i * ideal_chunk)) ::
        chunkRangesAux total_size ideal_chunk n (i + 1)

/-- Chunk byte ranges emitted by the reading loop, from index 0. -/
def chunkRanges (total_size ideal_chunk nthreads : Nat) : List (Nat × Nat) :=
  chunkRangesAux total_size ideal_chunk nthreads 0

/-- Chunk ranges for a given total size and requested parallelism, after the
planner has run. -/
def plannedRanges (total_size : Nat) (threads_requested : Int) : List (Nat × Nat) :=
  chunkRanges total_size (planChunks total_size threads_requested).ideal_chunk
    (planChunks total_size threads_requested).nthreads

/-- In-memory chunk buffers of one compression run: the planned byte ranges
sliced out of the input data. -/
def chunksOf (data : List Nat) (threads_requested : Int) : List (List Nat) :=
  (plannedRanges data.length threads_requested).map
    (fun r => (data.drop r.1).take r.2)

/-- Metadata slot written by the worker of one chunk: on success the
compressed and original sizes, on failure compressed size 0 and the original
size. -/
def metaOf (c : Codec) (ch : List Nat) : ChunkMeta :=
  if (compress_chunk c ch).2 then ⟨(compress_chunk c ch).1.length, ch.length⟩
  else ⟨0, ch.length⟩

/-- Metadata slots of all chunks of one compression run, in index order. -/
def metasOf (c : Codec) (data : List Nat) (threads_requested : Int) :
    List ChunkMeta :=
  (chunksOf data threads_requested).map (metaOf c)

/-- Compressed buffers of all chunks of one compression run, in index order:
exactly the bytes the driver writes after the header. -/
def payloadsOf (c : Codec) (data : List Nat) (threads_requested : Int) :
    List (List Nat) :=
  (chunksOf data threads_requested).map (fun ch => (compress_chunk c ch).1)

/-- Model of `file_size`: a missing file reports size 0. -/
def file_size : Option (List Nat) → Nat
  | none => 0
  | some data => data.length

/-- Result of one driver invocation: the returned exit status and the bytes
written to the output file, `none` when no output file is produced. -/
structure RunResult where
  exitCode : Nat
  output : Option (List Nat)
deriving DecidableEq

/-- Model of `compress_file`: reject an empty or missing input, plan the
chunk layout, compress every chunk, and write the header followed by the
compressed buffers in index order. -/
def compress_file (c : Codec) (inp : Option (List Nat))
    (threads_requested : Int) : RunResult :=
  if file_size inp = 0 then ⟨1, none⟩
  else
    match inp with
    | none => ⟨1, none⟩
    | some data =>
      ⟨0, some (write_header (metasOf c data threads_requested) ++
          (payloadsOf c data threads_requested).flatten)⟩

/-- Model of `decompress_file`: read the header, read every payload block of
its declared size, decompress every block against its declared original size,
and write the buffers in index order.  The `threads_requested` argument is
never consulted, mirroring the source. -/
def decompress_file (c : Codec) (inp : Option (List Nat))
    (_threads_requested : Int) : RunResult :=
  match inp with
  | none => ⟨1, none⟩
  | some bs =>
    match read_header bs with
    | none => ⟨1, none⟩
    | some (metas, rest) =>
      match readBlocks metas rest with
      | none => ⟨1, none⟩
      | some blocks =>
        ⟨0, some (((blocks.zip metas).map
            (fun p => (decompress_chunk c p.1 p.2.original_size).1)).flatten)⟩

/-- Model of `main`: clamp a non-positive thread count to 1 and dispatch on
the mode string, returning usage failure for an unknown mode. -/
def main_run (c : Codec) (mode : String) (inp : Option (List Nat))
    (threadsArg : Int) : RunResult :=
  let threads : Int := if threadsArg ≤ 0 then 1 else threadsArg
  if mode = "c" then compress_file c inp threads
  else if mode = "d" then decompress_file c inp threads
  else ⟨1, none⟩

/-- Round-trip contract of the deflate primitive pair, as assumed by the
spec: compressing into a buffer sized by `bound` succeeds, and decompressing
the truncated compressed bytes into a buffer of the original length restores
the original bytes exactly and reports exactly that length. -/
def Codec.Lawful (c : Codec) : Prop :=
  ∀ b : List Nat,
    (c.compRun b (c.bound b.length)).2.2 = true ∧
    c.decompRun ((c.compRun b (c.bound b.length)).1.take
        (c.compRun b (c.bound b.length)).2.1) b.length = (b, b.length, true)

/-- Buffer behaviour shared by the two concrete codecs below: copy the source
into a destination buffer of capacity `cap`, zero-padding the tail, and
succeed iff the source fits. -/
def idRun (src : List Nat) (cap : Nat) : List Nat × Nat × Bool :=
  (src.take cap ++ List.replicate (cap - src.length) 0,
    min src.length cap, decide (src.length ≤ cap))

/-- Concrete codec whose primitives copy their input verbatim, with a bound
equal to the input length.  It satisfies the round-trip contract. -/
def IdCodec : Codec where
  bound := fun n => n
  compRun := fun src cap => idRun src cap
  decompRun := fun src cap => idRun src cap
  compRun_len := by
    intro src cap
    simp [idRun]
    omega
  decompRun_len := by
    intro src cap
    simp [idRun]
    omega

/-- Concrete codec whose primitives always report failure, leaving the
destination buffer zero-filled; its bound mirrors a worst-case deflate bound.
It exercises the per-chunk failure paths. -/
def BadCodec : Codec where
  bound := fun n => n + 13
  compRun := fun _ cap => (List.replicate cap 0, 0, false)
  decompRun := fun _ cap => (List.replicate cap 0, 0, false)
  compRun_len := by
    intro src cap
    simp
  decompRun_len := by
    intro src cap
    simp

/-! Helper lemmas. -/

lemma lt_ceil_iff (a b i : Nat) (hb : 0 < b) (ha : 0 < a) :
    i < (a + b - 1) / b ↔ i * b < a := by
  rw [Nat.lt_iff_add_one_le, Nat.le_div_iff_mul_le hb, add_one_mul]
  omega

lemma le_ceil_mul (a b : Nat) (hb : 0 < b) : a ≤ ((a + b - 1) / b) * b := by
  have h1 := Nat.div_add_mod (a + b - 1) b
  have h2 : (a + b - 1) % b < b := Nat.mod_lt _ hb
  rw [mul_comm]
  omega

lemma ceil_le_of_cover (a b n : Nat) (hb : 0 < b) (h : a ≤ n * b) :
    (a + b - 1) / b ≤ n := by
  by_cases ha : 0 < a
  · by_contra hlt
    push_neg at hlt
    have := (lt_ceil_iff a b n hb ha).mp hlt
    omega
  · have ha0 : a = 0 := by omega
    subst ha0
    have h0 : (0 + b - 1) / b = 0 := Nat.div_eq_of_lt (by omega)
    rw [h0]
    exact Nat.zero_le n

lemma ceil_le_self (a b : Nat) (hb : 0 < b) : (a + b - 1) / b ≤ a := by
  by_cases ha : 0 < a
  · exact ceil_le_of_cover a b a hb (Nat.le_mul_of_pos_right a hb)
  · have ha0 : a = 0 := by omega
    subst ha0
    have h0 : (0 + b - 1) / b = 0 := Nat.div_eq_of_lt (by omega)
    rw [h0]

lemma planChunks_eq_small (total : Nat) (t : Int)
    (h : (total + (max 1 t).toNat - 1) / (max 1 t).toNat < MIN_CHUNK) :
    planChunks total t =
      { ideal_chunk := min MIN_CHUNK total,
        nthreads := max 1 ((total + min MIN_CHUNK total - 1) / min MIN_CHUNK total) } := by
  simp only [planChunks, if_pos h]

lemma planChunks_eq_large (total : Nat) (t : Int)
    (h : ¬ (total + (max 1 t).toNat - 1) / (max 1 t).toNat < MIN_CHUNK) :
    planChunks total t =
      { ideal_chunk := (total + (max 1 t).toNat - 1) / (max 1 t).toNat,
        nthreads := (max 1 t).toNat } := by
  simp only [planChunks, if_neg h]

lemma planChunks_spec (total : Nat) (t : Int) (h : 0 < total) :
    0 < (planChunks total t).ideal_chunk ∧
    0 < (planChunks total t).nthreads ∧
    total ≤ (planChunks total t).nthreads * (planChunks total t).ideal_chunk := by
  have hmc : MIN_CHUNK = 65536 := rfl
  have hn0 : 0 < (max 1 t).toNat := by omega
  by_cases hbr : (total + (max 1 t).toNat - 1) / (max 1 t).toNat < MIN_CHUNK
  · rw [planChunks_eq_small total t hbr]
    have hic : 0 < min MIN_CHUNK total := by omega
    refine ⟨hic, by simp, ?_⟩
    calc total ≤ ((total + min MIN_CHUNK total - 1) / min MIN_CHUNK total) *
          min MIN_CHUNK total := le_ceil_mul total (min MIN_CHUNK total) hic
      _ ≤ (max 1 ((total + min MIN_CHUNK total - 1) / min MIN_CHUNK total)) *
          min MIN_CHUNK total := Nat.mul_le_mul_right _ (le_max_right _ _)
  · rw [planChunks_eq_large total t hbr]
    push_neg at hbr
    refine ⟨?_, hn0, ?_⟩
    · show 0 < (total + (max 1 t).toNat - 1) / (max 1 t).toNat
      omega
    · show total ≤ (max 1 t).toNat * ((total + (max 1 t).toNat - 1) / (max 1 t).toNat)
      rw [mul_comm]
      exact le_ceil_mul total (max 1 t).toNat hn0

lemma chunkRangesAux_getElem (total ideal : Nat) :
    ∀ (n i j : Nat) (hj : j < (chunkRangesAux total ideal n i).length),
      (chunkRangesAux total ideal n i)[j] =
        ((i + j) * ideal, min ideal (total - (i + j) * ideal)) := by
  intro n
  induction n with
  | zero =>
    intro i j hj
    simp [chunkRangesAux] at hj
  | succ n ih =>
    intro i j hj
    by_cases hs : total ≤ i * ideal
    · simp [chunkRangesAux, hs] at hj
    · cases j with
      | zero => simp [chunkRangesAux, hs]
      | succ j =>
        have hj2 : j < (chunkRangesAux total ideal n (i + 1)).length := by
          simp [chunkRangesAux, hs] at hj
          omega
        have step : (chunkRangesAux total ideal (n + 1) i)[j + 1] =
            (chunkRangesAux total ideal n (i + 1))[j] := by
          simp [chunkRangesAux, hs]
        rw [step, ih (i + 1) j hj2]
        have : i + 1 + j = i + (j + 1) := by omega
        rw [this]

lemma chunkRangesAux_length (total ideal : Nat) (hid : 0 < ideal) (htot : 0 < total) :
    ∀ n i, (chunkRangesAux total ideal n i).length =
      min n ((total + ideal - 1) / ideal - i) := by
  intro n
  induction n with
  | zero => intro i; simp [chunkRangesAux]
  | succ n ih =>
    intro i
    by_cases hs : total ≤ i * ideal
    · have hqi : (total + ideal - 1) / ideal ≤ i := by
        by_contra hlt
        push_neg at hlt
        have := (lt_ceil_iff total ideal i hid htot).mp hlt
        omega
      simp [chunkRangesAux, hs]
      omega
    · have hiq : i < (total + ideal - 1) / ideal :=
        (lt_ceil_iff total ideal i hid htot).mpr (by omega)
      simp [chunkRangesAux, hs, ih (i + 1)]
      omega

lemma chunkRangesAux_sum (total ideal : Nat) :
    ∀ n i, total ≤ (i + n) * ideal →
      ((chunkRangesAux total ideal n i).map Prod.snd).sum = total - i * ideal := by
  intro n
  induction n with
  | zero =>
    intro i h
    simp only [Nat.add_zero] at h
    simp only [chunkRangesAux, List.map_nil, List.sum_nil]
    omega
  | succ n ih =>
    intro i h
    by_cases hs : total ≤ i * ideal
    · simp only [chunkRangesAux, if_pos hs, List.map_nil, List.sum_nil]
      omega
    · have hcov : total ≤ (i + 1 + n) * ideal := by
        have : (i + (n + 1)) * ideal = (i + 1 + n) * ideal := by ring
        omega
      have e1 : (i + 1) * ideal = i * ideal + ideal := by ring
      simp only [chunkRangesAux, if_neg hs, List.map_cons, List.sum_cons,
        ih (i + 1) hcov]
      omega

lemma chunkRangesAux_flatten (data : List Nat) (ideal : Nat) :
    ∀ n i, data.length ≤ (i + n) * ideal →
      ((chunkRangesAux data.length ideal n i).map
          (fun r => (data.drop r.1).take r.2)).flatten = data.drop (i * ideal) := by
  intro n
  induction n with
  | zero =>
    intro i h
    simp only [Nat.add_zero] at h
    simp [chunkRangesAux, List.drop_eq_nil_of_le h]
  | succ n ih =>
    intro i h
    by_cases hs : data.length ≤ i * ideal
    · simp [chunkRangesAux, hs, List.drop_eq_nil_of_le hs]
    · have hcov : data.length ≤ (i + 1 + n) * ideal := by
        have : (i + (n + 1)) * ideal = (i + 1 + n) * ideal := by ring
        omega
      have e1 : (i + 1) * ideal = i * ideal + ideal := by ring
      simp only [chunkRangesAux, if_neg hs, List.map_cons, List.flatten_cons,
        ih (i + 1) hcov, e1]
      set l := data.drop (i * ideal) with hl
      have hlen : l.length = data.length - i * ideal := by
        simp [hl]
      have hdd : data.drop (i * ideal + ideal) = l.drop ideal := by
        rw [hl, List.drop_drop]
        try congr 1
        try omega
      rw [hdd]
      by_cases hrem : ideal ≤ data.length - i * ideal
      · have hmin : min ideal (data.length - i * ideal) = ideal := by omega
        rw [hmin, List.take_append_drop]
      · have hmin : min ideal (data.length - i * ideal) = l.length := by omega
        rw [hmin, List.take_length, List.drop_eq_nil_of_le (by omega), List.append_nil]

lemma plannedRanges_length (total : Nat) (t : Int) (h : 0 < total) :
    (plannedRanges total t).length =
      (total + (planChunks total t).ideal_chunk - 1) /
        (planChunks total t).ideal_chunk := by
  obtain ⟨hid, hn, hcov⟩ := planChunks_spec total t h
  have hlen := chunkRangesAux_length total (planChunks total t).ideal_chunk hid h
    (planChunks total t).nthreads 0
  have hq := ceil_le_of_cover total (planChunks total t).ideal_chunk
    (planChunks total t).nthreads hid hcov
  rw [plannedRanges, chunkRanges, hlen]
  have hgen : ∀ q : Nat, q ≤ (planChunks total t).nthreads →
      min (planChunks total t).nthreads (q - 0) = q := by
    intro q hql
    omega
  exact hgen _ hq

lemma plannedRanges_getElem (total : Nat) (t : Int) (i : Nat)
    (hi : i < (plannedRanges total t).length) :
    (plannedRanges total t)[i] =
      (i * (planChunks total t).ideal_chunk,
        min (planChunks total t).ideal_chunk
          (total - i * (planChunks total t).ideal_chunk)) := by
  have hg := chunkRangesAux_getElem total (planChunks total t).ideal_chunk
    (planChunks total t).nthreads 0 i hi
  simpa [plannedRanges, chunkRanges] using hg

/-- C2: for every positive total size and every requested parallelism the
planned chunk byte ranges partition the interval from 0 to the total size
exactly: at least one chunk is emitted, every range starts at its index times
the stride and strictly before the end of the file, has positive size and
stays inside the file, consecutive ranges are adjacent with every non-final
range of full stride size, and the range sizes sum to the total size. -/
theorem chunk_ranges_partition (total : Nat) (t : Int) (h : 0 < total) :
    plannedRanges total t ≠ [] ∧
    (∀ i (hi : i < (plannedRanges total t).length),
      ((plannedRanges total t)[i]).1 = i * (planChunks total t).ideal_chunk ∧
      ((plannedRanges total t)[i]).1 < total ∧
      0 < ((plannedRanges total t)[i]).2 ∧
      ((plannedRanges total t)[i]).1 + ((plannedRanges total t)[i]).2 ≤ total) ∧
    (∀ i (hi : i + 1 < (plannedRanges total t).length),
      ((plannedRanges total t)[i + 1]).1 =
        ((plannedRanges total t)[i]).1 + ((plannedRanges total t)[i]).2 ∧
      ((plannedRanges total t)[i]).2 = (planChunks total t).ideal_chunk) ∧
    ((plannedRanges total t).map Prod.snd).sum = total := by
  obtain ⟨hid, hn, hcov⟩ := planChunks_spec total t h
  have hlen := plannedRanges_length total t h
  have hkey : ∀ i, i < (plannedRanges total t).length →
      i * (planChunks total t).ideal_chunk < total := by
    intro i hi
    rw [hlen] at hi
    exact (lt_ceil_iff total _ i hid h).mp hi
  have hnz : 0 < (plannedRanges total t).length := by
    rw [hlen]
    exact (lt_ceil_iff total _ 0 hid h).mpr (by omega)
  refine ⟨List.length_pos.mp hnz, ?_, ?_, ?_⟩
  · intro i hi
    have hk := hkey i hi
    rw [plannedRanges_getElem total t i hi]
    dsimp only
    refine ⟨rfl, hk, by omega, by omega⟩
  · intro i hi
    have hi0 : i < (plannedRanges total t).length := by omega
    have hk1 := hkey (i + 1) hi
    have e1 : (i + 1) * (planChunks total t).ideal_chunk =
        i * (planChunks total t).ideal_chunk + (planChunks total t).ideal_chunk := by
      ring
    rw [plannedRanges_getElem total t (i + 1) hi,
      plannedRanges_getElem total t i hi0]
    dsimp only
    exact ⟨by omega, by omega⟩
  · have e0 : (0 + (planChunks total t).nthreads) * (planChunks total t).ideal_chunk =
        (planChunks total t).nthreads * (planChunks total t).ideal_chunk := by
      ring
    have hsum := chunkRangesAux_sum total (planChunks total t).ideal_chunk
      (planChunks total t).nthreads 0 (by omega)
    show ((chunkRangesAux total (planChunks total t).ideal_chunk
        (planChunks total t).nthreads 0).map Prod.snd).sum = total
    omega

/-- Witness for C2 at total size 10 and requested parallelism 3. -/
theorem chunk_ranges_partition_witness :
    0 < 10 ∧ ((plannedRanges 10 3).map Prod.snd).sum = 10 :=
  ⟨by decide, (chunk_ranges_partition 10 3 (by decide)).2.2.2⟩

/-- C3: the planner computes the ceiling chunk size for the clamped
parallelism and, when that falls below the 64 KiB floor, recomputes the chunk
size as the floor capped by the total size, with the effective chunk count
equal to the ceiling of the total size over the chunk size; in particular any
input smaller than 64 KiB collapses to a single chunk covering the whole
input, for every requested parallelism. -/
theorem planner_min_chunk_floor (total : Nat) (t : Int) (h : 0 < total) :
    (planChunks total t).ideal_chunk =
      (if (total + (max 1 t).toNat - 1) / (max 1 t).toNat < MIN_CHUNK
        then min MIN_CHUNK total
        else (total + (max 1 t).toNat - 1) / (max 1 t).toNat) ∧
    ((total + (max 1 t).toNat - 1) / (max 1 t).toNat < MIN_CHUNK →
      (planChunks total t).nthreads =
        (total + (planChunks total t).ideal_chunk - 1) /
          (planChunks total t).ideal_chunk ∧
      (plannedRanges total t).length =
        (total + (planChunks total t).ideal_chunk - 1) /
          (planChunks total t).ideal_chunk) ∧
    (total < MIN_CHUNK → plannedRanges total t = [(0, total)]) := by
  have hmc : MIN_CHUNK = 65536 := rfl
  have hn0 : 0 < (max 1 t).toNat := by omega
  refine ⟨?_, ?_, ?_⟩
  · by_cases hbr : (total + (max 1 t).toNat - 1) / (max 1 t).toNat < MIN_CHUNK
    · rw [planChunks_eq_small total t hbr, if_pos hbr]
    · rw [planChunks_eq_large total t hbr, if_neg hbr]
  · intro hbr
    have hplan := planChunks_eq_small total t hbr
    have hic : 0 < min MIN_CHUNK total := by omega
    have hq2 : 0 < (total + min MIN_CHUNK total - 1) / min MIN_CHUNK total :=
      (lt_ceil_iff total _ 0 hic h).mpr (by omega)
    constructor
    · rw [hplan]
      show max 1 ((total + min MIN_CHUNK total - 1) / min MIN_CHUNK total) =
        (total + min MIN_CHUNK total - 1) / min MIN_CHUNK total
      omega
    · exact plannedRanges_length total t h
  · intro hsm
    have hbr : (total + (max 1 t).toNat - 1) / (max 1 t).toNat < MIN_CHUNK :=
      lt_of_le_of_lt (ceil_le_self total ((max 1 t).toNat) hn0) hsm
    have hq2a : 0 < (total + total - 1) / total :=
      (lt_ceil_iff total total 0 h h).mpr (by omega)
    have hq2b : (total + total - 1) / total ≤ 1 :=
      ceil_le_of_cover total total 1 h (by omega)
    have hplan : planChunks total t = { ideal_chunk := total, nthreads := 1 } := by
      rw [planChunks_eq_small total t hbr]
      have hmin : min MIN_CHUNK total = total := min_eq_right (le_of_lt hsm)
      rw [hmin]
      simp only [Plan.mk.injEq]
      refine ⟨trivial, ?_⟩
      omega
    have hc : ¬ total ≤ 0 * total := by omega
    rw [plannedRanges, hplan]
    show chunkRanges total total 1 = [(0, total)]
    rw [chunkRanges]
    simp only [chunkRangesAux, if_neg hc]
    simp

/-- Witness for C3 at the spec scenario: a 10000-byte input at requested
parallelism 8 collapses to one chunk covering the whole input. -/
theorem planner_min_chunk_floor_witness :
    0 < 10000 ∧ plannedRanges 10000 8 = [(0, 10000)] :=
  ⟨by decide, (planner_min_chunk_floor 10000 8 (by decide)).2.2 (by decide)⟩

lemma leBytes_length : ∀ w v, (leBytes w v).length = w := by
  intro w
  induction w with
  | zero => intro v; rfl
  | succ w ih => intro v; simp [leBytes, ih]

lemma decodeLE_cons (b : Nat) (bs : List Nat) :
    decodeLE (b :: bs) = b + 256 * decodeLE bs := rfl

lemma decodeLE_leBytes : ∀ w v, v < 256 ^ w → decodeLE (leBytes w v) = v := by
  intro w
  induction w with
  | zero =>
    intro v hv
    simp only [pow_zero, Nat.lt_one_iff] at hv
    simp [hv, leBytes, decodeLE]
  | succ w ih =>
    intro v hv
    have hlt : v / 256 < 256 ^ w := by
      rw [Nat.div_lt_iff_lt_mul (by norm_num)]
      calc v < 256 ^ (w + 1) := hv
        _ = 256 ^ w * 256 := by ring
    rw [leBytes, decodeLE_cons, ih (v / 256) hlt]
    omega

lemma readBytesN_of_length (n : Nat) (l rest : List Nat) (h : l.length = n) :
    readBytesN n (l ++ rest) = some (l, rest) := by
  subst h
  rw [readBytesN, if_pos (by simp)]
  simp

lemma readMetas_encode : ∀ (ms : List ChunkMeta) (rest : List Nat),
    (∀ m ∈ ms, m.compressed_size < 2 ^ 64 ∧ m.original_size < 2 ^ 64) →
    readMetas ms.length ((ms.map encodeMeta).flatten ++ rest) = some (ms, rest) := by
  intro ms
  induction ms with
  | nil =>
    intro rest hfit
    simp [readMetas]
  | cons m ms ih =>
    intro rest hfit
    obtain ⟨hcs, hos⟩ := hfit m (by simp)
    have h256 : (2 : Nat) ^ 64 = 256 ^ 8 := by norm_num
    rw [h256] at hcs hos
    have r1 := readBytesN_of_length 8 (leBytes 8 m.compressed_size)
      (leBytes 8 m.original_size ++ ((ms.map encodeMeta).flatten ++ rest))
      (leBytes_length 8 _)
    have r2 := readBytesN_of_length 8 (leBytes 8 m.original_size)
      ((ms.map encodeMeta).flatten ++ rest) (leBytes_length 8 _)
    have r3 := ih rest (fun x hx => hfit x (List.mem_cons_of_mem m hx))
    simp only [List.map_cons, List.flatten_cons, encodeMeta, List.append_assoc,
      List.length_cons, readMetas, r1, r2, r3,
      decodeLE_leBytes 8 m.compressed_size hcs,
      decodeLE_leBytes 8 m.original_size hos]

lemma read_header_write_header (ms : List ChunkMeta) (rest : List Nat)
    (hcnt : ms.length < 2 ^ 64)
    (hfit : ∀ m ∈ ms, m.compressed_size < 2 ^ 64 ∧ m.original_size < 2 ^ 64) :
    read_header (write_header ms ++ rest) = some (ms, rest) := by
  have h256 : (2 : Nat) ^ 64 = 256 ^ 8 := by norm_num
  rw [h256] at hcnt
  have r1 := readBytesN_of_length 4 MAGIC
    (leBytes 4 VERSION ++ (leBytes 8 ms.length ++ ((ms.map encodeMeta).flatten ++ rest)))
    (by rfl)
  have r2 := readBytesN_of_length 4 (leBytes 4 VERSION)
    (leBytes 8 ms.length ++ ((ms.map encodeMeta).flatten ++ rest)) (leBytes_length 4 _)
  have r3 := readBytesN_of_length 8 (leBytes 8 ms.length)
    ((ms.map encodeMeta).flatten ++ rest) (leBytes_length 8 _)
  have hv : decodeLE (leBytes 4 VERSION) = VERSION :=
    decodeLE_leBytes 4 VERSION (by decide)
  have hc : decodeLE (leBytes 8 ms.length) = ms.length := decodeLE_leBytes 8 _ hcnt
  have r4 := readMetas_encode ms rest (by
    intro m hm
    have := hfit m hm
    omega)
  simp only [write_header, List.append_assoc, read_header, r1, r2, r3, hv, hc, r4,
    ne_eq, not_true_eq_false, if_false]

lemma readBlocks_join (ms : List ChunkMeta) (ps : List (List Nat))
    (h : List.Forall₂ (fun (m : ChunkMeta) (p : List Nat) =>
      p.length = m.compressed_size) ms ps) :
    readBlocks ms ps.flatten = some ps := by
  induction h with
  | nil => rfl
  | @cons m p ms2 ps2 hmp htail ih =>
    have r := readBytesN_of_length m.compressed_size p ps2.flatten hmp
    simp only [List.flatten_cons, readBlocks, r, ih]

lemma readBlocks_length : ∀ (ms : List ChunkMeta) (bs : List Nat)
    (blocks : List (List Nat)), readBlocks ms bs = some blocks →
    blocks.length = ms.length := by
  intro ms
  induction ms with
  | nil =>
    intro bs blocks h
    simp only [readBlocks, Option.some.injEq] at h
    rw [← h]
    rfl
  | cons m ms ih =>
    intro bs blocks h
    rw [readBlocks] at h
    split at h
    · simp at h
    · split at h
      · simp at h
      · rename_i blks heq2
        simp only [Option.some.injEq] at h
        rw [← h]
        simp [ih _ _ heq2]

lemma decompress_chunk_length (c : Codec) (b : List Nat) (e : Nat) :
    (decompress_chunk c b e).1.length = e := by
  simp [decompress_chunk, c.decompRun_len]

lemma decompress_flatten_length (c : Codec) :
    ∀ (blocks : List (List Nat)) (ms : List ChunkMeta), blocks.length = ms.length →
      (((blocks.zip ms).map
        (fun p => (decompress_chunk c p.1 p.2.original_size).1)).flatten).length =
        (ms.map ChunkMeta.original_size).sum := by
  intro blocks
  induction blocks with
  | nil =>
    intro ms h
    cases ms with
    | nil => rfl
    | cons m ms2 => simp at h
  | cons b blocks ih =>
    intro ms h
    cases ms with
    | nil => simp at h
    | cons m ms2 =>
      have hl : blocks.length = ms2.length := by
        simp only [List.length_cons] at h
        omega
      simp only [List.zip_cons_cons, List.map_cons, List.flatten_cons,
        List.length_append, List.sum_cons, decompress_chunk_length, ih ms2 hl]

lemma take_append_first (pre rest : List Nat) (h : 4 ≤ pre.length) :
    (pre ++ rest).take 4 = pre.take 4 := by
  rw [List.take_append_eq_append_take]
  have h0 : 4 - pre.length = 0 := by omega
  simp [h0]

lemma drop_append_first (pre rest : List Nat) (h : 4 ≤ pre.length) :
    (pre ++ rest).drop 4 = pre.drop 4 ++ rest := by
  rw [List.drop_append_eq_append_drop]
  have h0 : 4 - pre.length = 0 := by omega
  simp [h0]

/-- C4: any input whose first four bytes differ from the magic tag or whose
four-byte version field decodes to a value other than 1 is rejected without
reading any chunk metadata or payload bytes (the result is the same for every
continuation of the stream): the header parser fails, decompression returns
exit status 1, and no output file is written. -/
theorem header_rejection (c : Codec) (t : Int) (pre rest : List Nat)
    (hlen : pre.length = 8)
    (hbad : pre.take 4 ≠ MAGIC ∨ decodeLE (pre.drop 4) ≠ VERSION) :
    read_header (pre ++ rest) = none ∧
    decompress_file c (some (pre ++ rest)) t = ⟨1, none⟩ := by
  have h1 : readBytesN 4 (pre ++ rest) = some (pre.take 4, pre.drop 4 ++ rest) := by
    rw [readBytesN, if_pos (by simp [hlen]; omega)]
    rw [take_append_first pre rest (by omega), drop_append_first pre rest (by omega)]
  have h2 : readBytesN 4 (pre.drop 4 ++ rest) = some (pre.drop 4, rest) :=
    readBytesN_of_length 4 (pre.drop 4) rest (by simp [hlen])
  have hdp : (pre.drop 4).take 4 = pre.drop 4 :=
    List.take_of_length_le (by simp [hlen])
  have hread : read_header (pre ++ rest) = none := by
    by_cases hmag : pre.take 4 = MAGIC
    · rcases hbad with hb | hb
      · exact absurd hmag hb
      · simp only [read_header, h1, hmag, ne_eq, not_true_eq_false, if_false, h2,
          hb, not_false_eq_true, if_true]
    · simp only [read_header, h1, ne_eq, hmag, not_false_eq_true, if_true]
  refine ⟨hread, ?_⟩
  simp only [decompress_file, hread]

/-- Witness for C4: a container whose magic bytes read "MTZ2" is rejected. -/
theorem header_rejection_witness :
    ([77, 84, 90, 50, 1, 0, 0, 0] : List Nat).length = 8 ∧
    decompress_file IdCodec (some ([77, 84, 90, 50, 1, 0, 0, 0] ++ [0, 0])) 4 =
      ⟨1, none⟩ :=
  ⟨by decide,
    (header_rejection IdCodec 4 [77, 84, 90, 50, 1, 0, 0, 0] [0, 0] (by decide)
      (Or.inl (by decide))).2⟩

/-- C6: compressing a missing or empty input fails with exit status 1 and
writes no output file, independently of the codec, so no chunk planning,
chunk reading or codec invocation can influence the result. -/
theorem empty_input_rejection (c : Codec) (t : Int) (inp : Option (List Nat))
    (h : file_size inp = 0) :
    compress_file c inp t = ⟨1, none⟩ := by
  unfold compress_file
  rw [if_pos h]

/-- Witness for C6 at a missing input file. -/
theorem empty_input_rejection_witness :
    file_size none = 0 ∧ compress_file IdCodec none 1 = ⟨1, none⟩ :=
  ⟨rfl, empty_input_rejection IdCodec 1 none rfl⟩

/-- C9: whenever the header and all declared payload blocks are read
successfully, decompression returns exit status 0 and writes an output file
whose length is exactly the sum of the declared original sizes, for every
codec, including one whose primitive fails on every chunk. -/
theorem decompress_output_size (c : Codec) (t : Int) (bs restb : List Nat)
    (metas : List ChunkMeta) (blocks : List (List Nat))
    (h1 : read_header bs = some (metas, restb))
    (h2 : readBlocks metas restb = some blocks) :
    ∃ out, decompress_file c (some bs) t = ⟨0, some out⟩ ∧
      out.length = (metas.map ChunkMeta.original_size).sum := by
  have hd : decompress_file c (some bs) t =
      ⟨0, some (((blocks.zip metas).map
        (fun p => (decompress_chunk c p.1 p.2.original_size).1)).flatten)⟩ := by
    simp only [decompress_file, h1, h2]
  exact ⟨_, hd, decompress_flatten_length c blocks metas
    (readBlocks_length metas restb blocks h2)⟩

/-- Witness for C9: a one-chunk container whose payload cannot decompress
still produces an output of the declared original size 3. -/
theorem decompress_output_size_witness :
    read_header (write_header [⟨2, 3⟩] ++ [9, 9]) = some ([⟨2, 3⟩], [9, 9]) ∧
    readBlocks [⟨2, 3⟩] [9, 9] = some [[9, 9]] ∧
    ∃ out, decompress_file BadCodec (some (write_header [⟨2, 3⟩] ++ [9, 9])) 1 =
        ⟨0, some out⟩ ∧
      out.length = (([⟨2, 3⟩] : List ChunkMeta).map ChunkMeta.original_size).sum :=
  ⟨by decide, by decide,
    decompress_output_size BadCodec 1 (write_header [⟨2, 3⟩] ++ [9, 9]) [9, 9]
      [⟨2, 3⟩] [[9, 9]] (by decide) (by decide)⟩

/-- C10: the bytes written by decompression are independent of the
thread-count argument, both through the driver directly and through the main
dispatcher: the decompress path never consults it. -/
theorem decompress_thread_count_independent (c : Codec) (inp : Option (List Nat))
    (t1 t2 : Int) :
    decompress_file c inp t1 = decompress_file c inp t2 ∧
    main_run c "d" inp t1 = main_run c "d" inp t2 :=
  ⟨rfl, rfl⟩

/-- C7 (divergence): a codec failure inside a chunk task does not produce
exit status 1: compressing a 1-byte input with a codec whose primitive fails
on the chunk reports the failure only in the chunk's metadata slot, returns
exit status 0 and still writes a container file. -/
theorem codec_failure_exit_status :
    (compress_chunk BadCodec [0]).2 = false ∧
    compress_file BadCodec (some [0]) 1 =
      ⟨0, some (write_header [⟨0, 1⟩] ++ List.replicate 14 0)⟩ := by
  constructor
  · decide
  · decide

/-- C8: for every codec, including ones whose primitive fails on some or all
chunks, a compression run on a non-empty input completes with exit status 0
and writes the container with the header and one payload per chunk; each
chunk's metadata slot and payload are functions of that chunk alone, and a
failing chunk records compressed size 0 and its own original size. -/
theorem per_chunk_failure_isolation (c : Codec) (data : List Nat) (t : Int)
    (h : data ≠ []) :
    compress_file c (some data) t =
      ⟨0, some (write_header (metasOf c data t) ++ (payloadsOf c data t).flatten)⟩ ∧
    (∀ i : Nat, (metasOf c data t)[i]? = ((chunksOf data t)[i]?).map (metaOf c)) ∧
    (∀ i : Nat, (payloadsOf c data t)[i]? =
      ((chunksOf data t)[i]?).map (fun ch => (compress_chunk c ch).1)) ∧
    (∀ ch, (compress_chunk c ch).2 = false → metaOf c ch = ⟨0, ch.length⟩) := by
  refine ⟨?_, ?_, ?_, ?_⟩
  · unfold compress_file
    rw [if_neg (by
      simp only [file_size]
      exact fun hz => h (List.length_eq_zero.mp hz))]
  · intro i
    simp [metasOf, List.getElem?_map]
  · intro i
    simp [payloadsOf, List.getElem?_map]
  · intro ch hf
    simp only [metaOf, hf, Bool.false_eq_true, if_false]

/-- Witness for C8: the always-failing codec on a 1-byte input still
completes and writes the container. -/
theorem per_chunk_failure_isolation_witness :
    ([0] : List Nat) ≠ [] ∧
    compress_file BadCodec (some [0]) 1 =
      ⟨0, some (write_header (metasOf BadCodec [0] 1) ++
        (payloadsOf BadCodec [0] 1).flatten)⟩ :=
  ⟨by decide, (per_chunk_failure_isolation BadCodec [0] 1 (by decide)).1⟩

/-- C5 (counterexample): it is not true that in every completed compression
run each written payload occupies exactly its declared compressed size: with
a codec whose primitive fails on the single chunk of a 1-byte input, the run
completes and writes the container, but payload 0 is 14 bytes long while its
declared compressed size is 0. -/
theorem container_self_description_counterexample :
    ¬ (∀ (c : Codec) (data : List Nat) (t : Int), data ≠ [] → ∀ i : Nat,
        ((payloadsOf c data t)[i]?).map List.length =
          ((metasOf c data t)[i]?).map ChunkMeta.compressed_size) := by
  intro hclaim
  have h0 := hclaim BadCodec [0] 1 (by decide) 0
  revert h0
  decide

/-- C5 (amended): for every compression run on a non-empty input in which
every chunk compresses successfully, the container is written with the
header's chunk count equal to the number of payload blocks, and each payload
occupies exactly its declared compressed size. -/
theorem container_self_description (c : Codec) (data : List Nat) (t : Int)
    (h : data ≠ [])
    (hok : ∀ ch ∈ chunksOf data t, (compress_chunk c ch).2 = true) :
    compress_file c (some data) t =
      ⟨0, some (write_header (metasOf c data t) ++ (payloadsOf c data t).flatten)⟩ ∧
    (metasOf c data t).length = (payloadsOf c data t).length ∧
    ∀ i : Nat, ((payloadsOf c data t)[i]?).map List.length =
      ((metasOf c data t)[i]?).map ChunkMeta.compressed_size := by
  refine ⟨?_, by simp [metasOf, payloadsOf], ?_⟩
  · unfold compress_file
    rw [if_neg (by
      simp only [file_size]
      exact fun hz => h (List.length_eq_zero.mp hz))]
  · intro i
    simp only [metasOf, payloadsOf, List.getElem?_map]
    cases hci : (chunksOf data t)[i]? with
    | none => rfl
    | some ch =>
      have hc := hok ch (List.getElem?_mem hci)
      simp [metaOf, hc]

/-- Witness for the amended C5 with the identity codec on a 1-byte input. -/
theorem container_self_description_witness :
    ([5] : List Nat) ≠ [] ∧
    compress_file IdCodec (some [5]) 1 =
      ⟨0, some (write_header (metasOf IdCodec [5] 1) ++
        (payloadsOf IdCodec [5] 1).flatten)⟩ :=
  ⟨by decide, (container_self_description IdCodec [5] 1 (by decide) (by decide)).1⟩

lemma lawful_compress_chunk (c : Codec) (hc : c.Lawful) (ch : List Nat) :
    compress_chunk c ch =
      ((c.compRun ch (c.bound ch.length)).1.take
        (c.compRun ch (c.bound ch.length)).2.1, true) := by
  obtain ⟨h1, h2⟩ := hc ch
  simp only [compress_chunk, h1, if_true]

lemma lawful_roundtrip_chunk (c : Codec) (hc : c.Lawful) (ch : List Nat) :
    decompress_chunk c (compress_chunk c ch).1 ch.length = (ch, true) := by
  obtain ⟨h1, h2⟩ := hc ch
  rw [lawful_compress_chunk c hc ch]
  simp only [decompress_chunk, h2]
  simp

lemma lawful_metaOf (c : Codec) (hc : c.Lawful) (ch : List Nat) :
    metaOf c ch = ⟨(compress_chunk c ch).1.length, ch.length⟩ := by
  have hsnd : (compress_chunk c ch).2 = true := by
    rw [lawful_compress_chunk c hc ch]
  simp only [metaOf, hsnd, if_true]

lemma lawful_meta_payload_sizes (c : Codec) (hc : c.Lawful) :
    ∀ chs : List (List Nat),
      List.Forall₂ (fun (m : ChunkMeta) (p : List Nat) => p.length = m.compressed_size)
        (chs.map (metaOf c)) (chs.map (fun ch => (compress_chunk c ch).1)) := by
  intro chs
  induction chs with
  | nil => simp
  | cons ch chs ih =>
    simp only [List.map_cons]
    refine List.Forall₂.cons ?_ ih
    rw [lawful_metaOf c hc ch]

lemma lawful_decode_pipeline (c : Codec) (hc : c.Lawful) :
    ∀ chs : List (List Nat),
      ((chs.map (fun ch => (compress_chunk c ch).1)).zip (chs.map (metaOf c))).map
        (fun p => (decompress_chunk c p.1 p.2.original_size).1) = chs := by
  intro chs
  induction chs with
  | nil => rfl
  | cons ch chs ih =>
    simp only [List.map_cons, List.zip_cons_cons]
    rw [lawful_metaOf c hc ch]
    show (decompress_chunk c (compress_chunk c ch).1 ch.length).1 :: _ = _
    rw [lawful_roundtrip_chunk c hc ch, ih]

lemma chunksOf_flatten (data : List Nat) (t : Int) (h : data ≠ []) :
    (chunksOf data t).flatten = data := by
  have hpos : 0 < data.length := List.length_pos.mpr h
  obtain ⟨hid, hn, hcov⟩ := planChunks_spec data.length t hpos
  have e0 : (0 + (planChunks data.length t).nthreads) *
      (planChunks data.length t).ideal_chunk =
      (planChunks data.length t).nthreads * (planChunks data.length t).ideal_chunk := by
    ring
  have hj := chunkRangesAux_flatten data (planChunks data.length t).ideal_chunk
    (planChunks data.length t).nthreads 0 (by omega)
  simpa [chunksOf, plannedRanges, chunkRanges] using hj

lemma chunksOf_length_le (data : List Nat) (t : Int) :
    ∀ ch ∈ chunksOf data t, ch.length ≤ data.length := by
  intro ch hch
  simp only [chunksOf, List.mem_map] at hch
  obtain ⟨r, hr, hrfl⟩ := hch
  rw [← hrfl]
  simp only [List.length_take, List.length_drop]
  omega

lemma chunksOf_count_le (data : List Nat) (t : Int) (h : data ≠ []) :
    (chunksOf data t).length ≤ data.length := by
  have hpos : 0 < data.length := List.length_pos.mpr h
  obtain ⟨hid, hn, hcov⟩ := planChunks_spec data.length t hpos
  have hlen := plannedRanges_length data.length t hpos
  have hle := ceil_le_self data.length (planChunks data.length t).ideal_chunk hid
  simp only [chunksOf, List.length_map]
  omega

lemma compress_chunk_length_le (c : Codec) (ch : List Nat) :
    (compress_chunk c ch).1.length ≤ c.bound ch.length := by
  have hb := c.compRun_len ch (c.bound ch.length)
  by_cases hok : (c.compRun ch (c.bound ch.length)).2.2 = true
  · simp only [compress_chunk, hok, if_true, List.length_take]
    omega
  · rw [Bool.not_eq_true] at hok
    simp only [compress_chunk, hok, Bool.false_eq_true, if_false]
    omega

/-- C1: for every codec satisfying the deflate round-trip contract, every
non-empty input whose length and codec bound values fit the 64-bit header
fields, and every requested parallelism, compression succeeds and writes a
container that decompression maps back to exactly the input bytes, for every
thread count passed on the decompression side. -/
theorem compress_decompress_round_trip (c : Codec) (data : List Nat) (t t2 : Int)
    (hc : c.Lawful) (hne : data ≠ []) (hfits : data.length < 2 ^ 64)
    (hbound : ∀ n, n ≤ data.length → c.bound n < 2 ^ 64) :
    ∃ container, compress_file c (some data) t = ⟨0, some container⟩ ∧
      decompress_file c (some container) t2 = ⟨0, some data⟩ := by
  refine ⟨write_header (metasOf c data t) ++ (payloadsOf c data t).flatten, ?_, ?_⟩
  · unfold compress_file
    rw [if_neg (by
      simp only [file_size]
      exact fun hz => hne (List.length_eq_zero.mp hz))]
  · have hcnt : (metasOf c data t).length < 2 ^ 64 := by
      have hcle := chunksOf_count_le data t hne
      simp only [metasOf, List.length_map]
      omega
    have hfit : ∀ m ∈ metasOf c data t,
        m.compressed_size < 2 ^ 64 ∧ m.original_size < 2 ^ 64 := by
      intro m hm
      simp only [metasOf, List.mem_map] at hm
      obtain ⟨ch, hch, hrfl⟩ := hm
      have hchle := chunksOf_length_le data t ch hch
      rw [← hrfl, lawful_metaOf c hc ch]
      have hl1 := compress_chunk_length_le c ch
      have hl2 := hbound ch.length hchle
      constructor
      · show (compress_chunk c ch).1.length < 2 ^ 64
        omega
      · show ch.length < 2 ^ 64
        omega
    have hrh := read_header_write_header (metasOf c data t)
      ((payloadsOf c data t).flatten) hcnt hfit
    have hrb : readBlocks (metasOf c data t) ((payloadsOf c data t).flatten) =
        some (payloadsOf c data t) :=
      readBlocks_join (metasOf c data t) (payloadsOf c data t)
        (lawful_meta_payload_sizes c hc (chunksOf data t))
    simp only [decompress_file, hrh, hrb]
    have hpipe := lawful_decode_pipeline c hc (chunksOf data t)
    have hfl := chunksOf_flatten data t hne
    show RunResult.mk 0 (some ((((chunksOf data t).map
        (fun ch => (compress_chunk c ch).1)).zip
        ((chunksOf data t).map (metaOf c))).map
        (fun p => (decompress_chunk c p.1 p.2.original_size).1)).flatten) =
      RunResult.mk 0 (some data)
    rw [hpipe, hfl]

lemma IdCodec_lawful : IdCodec.Lawful := by
  intro b
  constructor
  · simp [IdCodec, idRun]
  · simp [IdCodec, idRun]

/-- Witness for C1: the identity codec on a 1-byte input round-trips. -/
theorem compress_decompress_round_trip_witness :
    IdCodec.Lawful ∧
    ∃ container, compress_file IdCodec (some [5]) 2 = ⟨0, some container⟩ ∧
      decompress_file IdCodec (some container) 3 = ⟨0, some [5]⟩ :=
  ⟨IdCodec_lawful,
    compress_decompress_round_trip IdCodec [5] 2 3 IdCodec_lawful (by decide)
      (by decide)
      (fun n hn => by
        simp only [List.length_cons, List.length_nil] at hn
        show n < 2 ^ 64
        omega)⟩

end MTZ
